import Mathlib

/-!
Verification development for the `codemirror-mcp` editor extension.

The definitions below are a shallow embedding of the TypeScript sources:
documents are lists of characters, the JavaScript `Map` is an association
list with insertion-order `set` semantics, asynchronous calls that may fail
are `Except` values, and the CodeMirror transaction filter is a pure
function from a transaction description to a filter decision.
-/

namespace CodemirrorMcp

/-! ## Token matcher (`src/utils.ts`)

`URI_PATTERN = /@[\w-]+:\/\/(?!\/)[^\s]+/` and
`matchAllURIs(text) = text.matchAll(new RegExp(URI_PATTERN.source, "g"))`.
-/

/-- JavaScript `\w`: ASCII letters, ASCII digits, and underscore. -/
def isWordChar (c : Char) : Bool :=
  decide (('a' ≤ c ∧ c ≤ 'z') ∨ ('A' ≤ c ∧ c ≤ 'Z') ∨ ('0' ≤ c ∧ c ≤ '9') ∨ c = '_')

/-- Character class `[\w-]` used for the scheme part of `URI_PATTERN`. -/
def isSchemeChar (c : Char) : Bool :=
  isWordChar c || c = '-'

/-- JavaScript `\s`: whitespace characters as defined for regular expressions
(ASCII whitespace, NBSP, Unicode space separators, line/paragraph separators,
and the byte-order mark). -/
def isJSSpace (c : Char) : Bool :=
  decide (c = ' ' ∨ c = '\t' ∨ c = '\n' ∨ c = '\r' ∨ c = '\x0b' ∨ c = '\x0c' ∨
  c = ' ' ∨ c = ' ' ∨ (' ' ≤ c ∧ c ≤ ' ') ∨
  c = ' ' ∨ c = ' ' ∨ c = ' ' ∨ c = ' ' ∨
  c = '　' ∨ c = '﻿')

/-- One attempt of `URI_PATTERN` anchored at the head of `cs`: `@`, a greedy
nonempty run of `[\w-]` (the scheme), the literal `://`, a negative lookahead
rejecting a third `/`, then a greedy nonempty run of non-whitespace.
Returns the matched token. -/
def matchTokenAt (cs : List Char) : Option (List Char) :=
  match cs with
  | [] => none
  | c :: rest =>
    if c = '@' then
      let scheme := rest.takeWhile isSchemeChar
      let rest1 := rest.dropWhile isSchemeChar
      if scheme.isEmpty then none
      else
        match rest1 with
        | c1 :: c2 :: c3 :: rest2 =>
          if c1 = ':' ∧ c2 = '/' ∧ c3 = '/' then
            match rest2 with
            | [] => none
            | c4 :: _ =>
              if c4 = '/' then none
              else
                let tail := rest2.takeWhile (fun ch => !(isJSSpace ch))
                if tail.isEmpty then none
                else some ('@' :: scheme ++ ':' :: '/' :: '/' :: tail)
          else none
        | _ => none
    else none

/-- Leftmost, non-overlapping scan of `URI_PATTERN` with the `g` flag: try a
match at every position; after a match, resume at its end. `fuel` bounds the
recursion and is instantiated with the text length. Each result pairs the
match index with the matched token. -/
def scanTokens : Nat → Nat → List Char → List (Nat × List Char)
  | 0, _, _ => []
  | _ + 1, _, [] => []
  | fuel + 1, i, c :: rest =>
    match matchTokenAt (c :: rest) with
    | some tok => (i, tok) :: scanTokens fuel (i + tok.length) ((c :: rest).drop tok.length)
    | none => scanTokens fuel (i + 1) rest

/-- All matches of `URI_PATTERN` in `text`, in document order, as
(index, matched text) pairs — the embedding of `matchAllURIs`. -/
def matchAllURIs (text : List Char) : List (Nat × List Char) :=
  scanTokens text.length 0 text

/-! ## The catalog store (`src/state.ts`)

A JavaScript `Map` is embedded as an association list with unique keys kept
in insertion order; `set` overwrites in place or appends. -/

/-- Entry list for a JavaScript `Map` from strings to `α`. -/
abbrev JsMap (α : Type) := List (List Char × α)

/-- `Map.prototype.set`: overwrite the value at an existing key in place,
otherwise append the binding at the end. -/
def mapSet {α : Type} : JsMap α → List Char → α → JsMap α
  | [], k, v => [(k, v)]
  | (k', v') :: rest, k, v =>
    if k' = k then (k', v) :: rest else (k', v') :: mapSet rest k v

/-- `Map.prototype.get`: first (and, for maps built by `set`, only) binding. -/
def mapGet {α : Type} : JsMap α → List Char → Option α
  | [], _ => none
  | (k', v') :: rest, k => if k' = k then some v' else mapGet rest k

/-- `Map.prototype.has`. -/
def mapHas {α : Type} (m : JsMap α) (k : List Char) : Bool :=
  (mapGet m k).isSome

/-- Body of the `updateResources` branch of `resourcesField.update`:
`new Map(oldResources)` followed by one `set` per entry of the incoming
batch, in batch order. -/
def mergeResources {α : Type} (old : JsMap α) (batch : List (List Char × α)) : JsMap α :=
  batch.foldl (fun m kv => mapSet m kv.1 kv.2) old

/-- A state effect as seen by `resourcesField.update`: either an
`updateResources` payload or some unrelated effect. -/
inductive Effect (α : Type) where
  | updateResources (batch : List (List Char × α))
  | other
deriving DecidableEq

/-- The `update` method of `resourcesField`: walk the transaction's effect
list and, at the first `updateResources` effect, return the merge of its
batch into a copy of the old store (the `return` inside the `for` loop);
with no such effect the old store is returned. -/
def resourcesFieldUpdate {α : Type} (old : JsMap α) : List (Effect α) → JsMap α
  | [] => old
  | Effect.updateResources batch :: _ => mergeResources old batch
  | Effect.other :: es => resourcesFieldUpdate old es

/-! ## Documents and lines

A document is a list of characters; `lineFrom`/`lineTo` are the bounds of
the line containing a position (`doc.lineAt(pos).from/.to`, the newline
excluded), and `sliceString` is `doc.sliceString(a, b)`. -/

/-- Start offset of the line containing `pos`. -/
def lineFrom (doc : List Char) (pos : Nat) : Nat :=
  pos - ((doc.take pos).reverse.takeWhile (fun c => ¬ c = '\n')).length

/-- End offset (exclusive of the newline) of the line containing `pos`. -/
def lineTo (doc : List Char) (pos : Nat) : Nat :=
  pos + ((doc.drop pos).takeWhile (fun c => ¬ c = '\n')).length

/-- `doc.sliceString(a, b)`. -/
def sliceString (doc : List Char) (a b : Nat) : List Char :=
  (doc.take b).drop a

/-! ## Token-atomicity filter (`src/resources/input-filter.ts`)

The resource lookups return `(from, to, uri)` triples; the store is only
consulted through `has`, so its value type stays abstract. -/

/-- `getResourceAtCursor`: first token on the cursor's line that ends exactly
at `pos` and whose identifier is in the store. -/
def getResourceAtCursor {α : Type} (resources : JsMap α) (doc : List Char) (pos : Nat) :
    Option (Nat × Nat × List Char) :=
  let lf := lineFrom doc pos
  let lineText := sliceString doc lf (lineTo doc pos)
  (matchAllURIs lineText).findSome? (fun m =>
    let resourceStart := lf + m.1
    let resourceEnd := resourceStart + m.2.length
    let uri := m.2.drop 1
    if pos = resourceEnd ∧ mapHas resources uri then some (resourceStart, resourceEnd, uri)
    else none)

/-- `getResourceAfterCursor`: token starting exactly at `pos` (first match of
the text after the cursor on its line) whose identifier is in the store. -/
def getResourceAfterCursor {α : Type} (resources : JsMap α) (doc : List Char) (pos : Nat) :
    Option (Nat × Nat × List Char) :=
  let textAfter := sliceString doc pos (lineTo doc pos)
  match matchAllURIs textAfter with
  | [] => none
  | firstMatch :: _ =>
    if ¬ firstMatch.1 = 0 then none
    else
      let resourceEnd := pos + firstMatch.2.length
      let uri := firstMatch.2.drop 1
      if mapHas resources uri then some (pos, resourceEnd, uri) else none

/-- `getResourceAtPosition`: token on the cursor's line strictly containing
`pos` whose identifier is in the store. -/
def getResourceAtPosition {α : Type} (resources : JsMap α) (doc : List Char) (pos : Nat) :
    Option (Nat × Nat × List Char) :=
  let lf := lineFrom doc pos
  let lineText := sliceString doc lf (lineTo doc pos)
  (matchAllURIs lineText).findSome? (fun m =>
    let resourceStart := lf + m.1
    let resourceEnd := resourceStart + m.2.length
    let uri := m.2.drop 1
    if pos > resourceStart ∧ pos < resourceEnd ∧ mapHas resources uri then
      some (resourceStart, resourceEnd, uri)
    else none)

/-- `getResourceBoundaryLeft`: boundary reached when moving left from `pos`
(matches are taken over the line text truncated at the cursor). -/
def getResourceBoundaryLeft {α : Type} (resources : JsMap α) (doc : List Char) (pos : Nat) :
    Option Nat :=
  let lf := lineFrom doc pos
  let lineText := sliceString doc lf pos
  (matchAllURIs lineText).foldl
    (fun bestBoundary m =>
      let resourceStart := lf + m.1
      let resourceEnd := resourceStart + m.2.length
      let uri := m.2.drop 1
      if mapHas resources uri ∧ resourceEnd ≤ pos then
        if pos > resourceEnd then some resourceEnd
        else if pos = resourceEnd then some resourceStart
        else bestBoundary
      else bestBoundary)
    none

/-- `getResourceBoundaryRight`: boundary reached when moving right from
`pos` (first resolved token starting at or after the cursor on its line). -/
def getResourceBoundaryRight {α : Type} (resources : JsMap α) (doc : List Char) (pos : Nat) :
    Option Nat :=
  let lf := lineFrom doc pos
  let lineText := sliceString doc lf (lineTo doc pos)
  (matchAllURIs lineText).findSome? (fun m =>
    let resourceStart := lf + m.1
    let resourceEnd := resourceStart + m.2.length
    let uri := m.2.drop 1
    if mapHas resources uri ∧ resourceStart ≥ pos then
      if pos < resourceStart then some resourceStart
      else if pos = resourceStart then some resourceEnd
      else none
    else none)

/-- A single replacement of `[cFrom, cTo)` by `insert` (`{from, to, insert}`). -/
structure Change where
  cFrom : Nat
  cTo : Nat
  insert : List Char
deriving DecidableEq

/-- The parts of a CodeMirror transaction inspected by the filter: the
`userEvent` annotation, the (collapsed or not) selection of the start state,
the change list, and the selection proposed by the transaction, if any. -/
structure Tr where
  userEvent : Option (List Char)
  startSelAnchor : Nat
  startSelHead : Nat
  changes : List Change
  newSel : Option (Nat × Nat)
deriving DecidableEq

/-- Filter decision: pass the transaction through unchanged, or replace it
with the given changes and selection. -/
inductive FilterOut where
  | pass
  | rewrite (changes : List Change) (sel : Option (Nat × Nat))
deriving DecidableEq

/-- One iteration of the insertion-handling loop body (`iterChanges`): leave
pure-whitespace insertions alone, otherwise add a separating space when the
insertion touches a resolved token's start or end boundary. Returns the
possibly rewritten change and its cursor adjustment. -/
def processInsertChange {α : Type} (resources : JsMap α) (doc : List Char) (ch : Change) :
    Change × Nat :=
  let insertedText := ch.insert
  let insertPos := ch.cFrom
  if ¬ insertedText.isEmpty ∧ insertedText.all isJSSpace then (ch, 0)
  else
    let lf := lineFrom doc insertPos
    let lineText := sliceString doc lf (lineTo doc insertPos)
    let ms := matchAllURIs lineText
    let needsSpaceBefore := ms.any (fun m =>
      let resourceStart := lf + m.1
      let uri := m.2.drop 1
      mapHas resources uri &&
        (insertPos == resourceStart &&
          (let charBefore := if insertPos > 0 then sliceString doc (insertPos - 1) insertPos else []
           decide (¬ charBefore = [] ∧ ¬ charBefore = [' '] ∧ ¬ charBefore = ['\n'] ∧
             ¬ charBefore = ['\t']))))
    let needsSpaceAfter := ms.any (fun m =>
      let resourceStart := lf + m.1
      let resourceEnd := resourceStart + m.2.length
      let uri := m.2.drop 1
      mapHas resources uri &&
        (insertPos == resourceEnd &&
          (let charAfter := if insertPos < doc.length then sliceString doc insertPos (insertPos + 1)
                            else []
           decide (charAfter = [] ∨ (¬ charAfter = [' '] ∧ ¬ charAfter = ['\n'] ∧
             ¬ charAfter = ['\t'])))))
    let final1 := if needsSpaceBefore then ' ' :: insertedText else insertedText
    let final2 := if needsSpaceAfter then ' ' :: final1 else final1
    let adjustment := (if needsSpaceBefore then 1 else 0) + (if needsSpaceAfter then 1 else 0)
    (⟨ch.cFrom, ch.cTo, final2⟩, adjustment)

/-- Insertion-handling section of the filter (`input.type` and other
`input*` user events): `some out` when the section returns a transaction,
`none` when it falls through. -/
def inputHandling {α : Type} (resources : JsMap α) (doc : List Char) (tr : Tr)
    (userEvent : List Char) : Option FilterOut :=
  if userEvent = "input.type".toList ∨ ("input".toList).isPrefixOf userEvent then
    if tr.changes.isEmpty then some .pass
    else
      let results := tr.changes.map (processInsertChange resources doc)
      let newChanges := results.map Prod.fst
      let cursorAdjustment := results.foldl (fun acc r => acc + r.2) 0
      if ¬ newChanges = tr.changes then
        some (.rewrite newChanges
          (tr.newSel.map (fun s => (s.1 + cursorAdjustment, s.2 + cursorAdjustment))))
      else none
  else none

/-- Deletion-handling section of the filter (`delete.backward` /
`delete.forward` user events): pass the transaction through when no resolved
token sits at the cursor boundary, otherwise delete the token span and put
the cursor at its start. -/
def deleteHandling {α : Type} (resources : JsMap α) (doc : List Char) (tr : Tr)
    (userEvent : List Char) : FilterOut :=
  let resource :=
    if userEvent = "delete.backward".toList then
      getResourceAtCursor resources doc tr.startSelHead
    else
      getResourceAfterCursor resources doc tr.startSelHead
  match resource with
  | none => .pass
  | some (rFrom, rTo, _) => .rewrite [⟨rFrom, rTo, []⟩] (some (rFrom, rFrom))

/-- Cursor-movement section of the filter (remaining user events): snap the
cursor across resolved-token boundaries, otherwise pass through. -/
def movementHandling {α : Type} (resources : JsMap α) (doc : List Char) (tr : Tr)
    (userEvent : List Char) : FilterOut :=
  match tr.newSel with
  | some (a, h) =>
    if a = h ∧ ¬ ("input".toList).isPrefixOf userEvent ∧
        ¬ userEvent = "input.type".toList then
      let oldPos := tr.startSelHead
      let newPos := h
      let targetPos : Option Nat :=
        if newPos < oldPos then
          match getResourceAtPosition resources doc oldPos with
          | some (rs, _, _) =>
            if oldPos > rs then some rs else getResourceBoundaryLeft resources doc oldPos
          | none => getResourceBoundaryLeft resources doc oldPos
        else if newPos > oldPos then
          match getResourceAtPosition resources doc oldPos with
          | some (_, re, _) =>
            if oldPos < re then some re else getResourceBoundaryRight resources doc oldPos
          | none => getResourceBoundaryRight resources doc oldPos
        else none
      match targetPos with
      | some t => if ¬ t = newPos then .rewrite [] (some (t, t)) else .pass
      | none => .pass
    else .pass
  | none => .pass

/-- The transaction filter `resourceInputFilter`, as a pure function of the
pre-transaction document, the catalog store, and the transaction: guard on
the `userEvent` annotation and on a collapsed selection, then run the
insertion, deletion, and cursor-movement sections in the source's order. -/
def resourceInputFilter {α : Type} (resources : JsMap α) (doc : List Char) (tr : Tr) :
    FilterOut :=
  match tr.userEvent with
  | none => .pass
  | some userEvent =>
    if ¬ tr.startSelAnchor = tr.startSelHead then .pass
    else
      match inputHandling resources doc tr userEvent with
      | some out => out
      | none =>
        if userEvent = "delete.backward".toList ∨ userEvent = "delete.forward".toList then
          deleteHandling resources doc tr userEvent
        else
          movementHandling resources doc tr userEvent

/-- Apply a single change to a document. -/
def applyChange (doc : List Char) (ch : Change) : List Char :=
  doc.take ch.cFrom ++ ch.insert ++ doc.drop ch.cTo

/-! ## Decoration engine (`src/resources/decoration.ts`)

`createResourceDecorations` walks the visible ranges, matches `URI_PATTERN`
on each range's text, and emits a replace decoration per match: a
`ResourceWidget` when the identifier resolves against the store, a
`NotFoundResourceWidget` otherwise. -/

/-- A decoration emitted by `createResourceDecorations`: either a resolved
widget carrying the catalog entry or a not-found widget carrying the raw
identifier, each spanning `[start, stop)`. -/
inductive Deco (α : Type) where
  | resolved (resource : α) (start stop : Nat)
  | unresolved (uri : List Char) (start stop : Nat)
deriving DecidableEq

/-- True for decorations of resolved tokens. -/
def Deco.isResolved {α : Type} : Deco α → Bool
  | .resolved _ _ _ => true
  | .unresolved _ _ _ => false

/-- Body of the outer loop of `createResourceDecorations` for one visible
range `(from, to)`. -/
def decorateRange {α : Type} (resources : JsMap α) (doc : List Char) (rg : Nat × Nat) :
    List (Deco α) :=
  let text := sliceString doc rg.1 rg.2
  (matchAllURIs text).map (fun m =>
    let start := rg.1 + m.1
    let uri := m.2.drop 1
    match mapGet resources uri with
    | some resource => .resolved resource start (start + m.2.length)
    | none => .unresolved uri start (start + m.2.length))

/-- `createResourceDecorations`: decorations of every visible range, in
order. -/
def createResourceDecorations {α : Type} (resources : JsMap α) (doc : List Char)
    (visibleRanges : List (Nat × Nat)) : List (Deco α) :=
  (visibleRanges.map (decorateRange resources doc)).flatten

/-! ## Completion source (`src/mcp.ts` and the unified extension module)

Asynchronous fetches are embedded as `Except` values; the optional logger is
embedded as the list of messages that would be passed to it; a dispatched
`updateResources`/`updatePrompts` effect is recorded as the batch map it
carries (`none` when no view is available or nothing is dispatched). -/

/-- Resource record as delivered by `resources/list` (MCP SDK shape). -/
structure MCPResource where
  uri : List Char
  name : List Char
  description : Option (List Char)
  mimeType : Option (List Char)
deriving DecidableEq

/-- Prompt record as delivered by `prompts/list`; `args` holds the keys of
`prompt.args` when that field is present. -/
structure Prompt where
  name : List Char
  description : Option (List Char)
  args : Option (List (List Char))
deriving DecidableEq

/-- JavaScript truthiness of an optional string (`undefined` and `""` are
falsy). -/
def strTruthy : Option (List Char) → Bool
  | some s => !s.isEmpty
  | none => false

/-- A resource completion item as built by `handleResourceCompletion`;
`applyInsert` is the text its `apply` callback dispatches over the trigger
span (`` `@${resource.uri}` ``). -/
structure ResourceOption where
  label : List Char
  displayLabel : List Char
  detail : List Char
  info : Option (List Char)
  type : List Char
  boost : Nat
  applyInsert : List Char
deriving DecidableEq

/-- The completion item built for one resource. -/
def mkResourceOption (r : MCPResource) : ResourceOption where
  label := '@' :: r.name
  displayLabel := r.name
  detail := r.uri
  info := if strTruthy r.description then r.description else none
  type := if strTruthy r.mimeType then "constant".toList else "variable".toList
  boost := if strTruthy r.description then 100 else 0
  applyInsert := '@' :: r.uri

/-- A prompt completion item as built by `handlePromptCompletion`. -/
structure PromptOption where
  label : List Char
  displayLabel : List Char
  detail : Option (List Char)
  type : List Char
  boost : Nat
deriving DecidableEq

/-- The completion item built for one prompt. -/
def mkPromptOption (p : Prompt) : PromptOption where
  label := '/' :: p.name
  displayLabel := p.name
  detail := p.description
  type := "keyword".toList
  boost := if strTruthy p.description then 100 else 0

/-- Observable outcome of a completion handler: logger calls, the batch map
dispatched to the state field (if any), and the returned completion list
(`none` embeds the handler returning `null`). -/
structure HandlerOutcome (β γ : Type) where
  logs : List (List Char)
  dispatched : Option (JsMap β)
  result : Option (Nat × List γ)
deriving DecidableEq

/-- `handleResourceCompletion` of the unified extension module: guard on the
matched word and connection, then either propagate-free failure handling
(catch: log and return `null`), `null` on an empty list, or merge-dispatch
plus one completion item per fetched resource. -/
def handleResourceCompletion (word : Option (Nat × Nat)) (explicit connected : Bool)
    (fetched : Except (List Char) (List MCPResource)) (hasView : Bool) :
    HandlerOutcome MCPResource ResourceOption :=
  match word with
  | none => ⟨[], none, none⟩
  | some w =>
    if w.1 = w.2 ∧ ¬ explicit then ⟨[], none, none⟩
    else if ¬ connected then ⟨["MCP client is not connected".toList], none, none⟩
    else
      let logs0 := ["Fetching resources from MCP server".toList]
      match fetched with
      | .error e => ⟨logs0 ++ ["Failed to fetch MCP resources:".toList ++ e], none, none⟩
      | .ok resources =>
        if resources.length = 0 then ⟨logs0, none, none⟩
        else
          let batch := mergeResources [] (resources.map (fun r => (r.uri, r)))
          ⟨logs0 ++ ["Got resources from MCP server".toList],
            if hasView then some batch else none,
            some (w.1, resources.map mkResourceOption)⟩

/-- The filter predicate of `handlePromptCompletion`:
`!prompt.args || Object.keys(prompt.args).length === 0`. -/
def promptHasNoArgs (p : Prompt) : Bool :=
  p.args.isNone || (p.args.getD []).isEmpty

/-- `handlePromptCompletion` of `src/mcp.ts` (list phase): guards, then
filter out prompts with arguments, return `null` when none survive,
otherwise dispatch `updatePrompts` with the argument-free prompts while
building one completion item per fetched prompt (arguments included). -/
def handlePromptCompletion (word : Option (Nat × Nat)) (explicit connected : Bool)
    (fetched : Except (List Char) (List Prompt)) (hasView : Bool) :
    HandlerOutcome Prompt PromptOption :=
  match word with
  | none => ⟨[], none, none⟩
  | some w =>
    if w.1 = w.2 ∧ ¬ explicit then ⟨[], none, none⟩
    else if ¬ connected then ⟨["MCP client is not connected".toList], none, none⟩
    else
      let logs0 := ["Fetching prompts from MCP server".toList]
      match fetched with
      | .error e => ⟨logs0 ++ ["Failed to fetch MCP prompts:".toList ++ e], none, none⟩
      | .ok prompts =>
        let promptWithoutArgs := prompts.filter promptHasNoArgs
        if promptWithoutArgs.length = 0 then ⟨logs0, none, none⟩
        else
          let batch := mergeResources [] (promptWithoutArgs.map (fun p => (p.name, p)))
          ⟨logs0 ++ ["Got prompts from MCP server".toList],
            if hasView then some batch else none,
            some (w.1, prompts.map mkPromptOption)⟩

/-- Side effects the `apply` callback of a prompt suggestion can perform:
the secondary `prompts/get` fetch and the submit-callback invocation. -/
inductive PromptAction where
  | fetchPromptContent (name : List Char)
  | submitPrompt (name : List Char)
deriving DecidableEq

/-- Observable outcome of the prompt `apply` callback: logger calls, actions
performed, and the thrown error, if any. -/
structure ApplyOutcome where
  logs : List (List Char)
  actions : List PromptAction
  thrown : Option (List Char)
deriving DecidableEq

/-- The `apply` callback of a prompt suggestion (`src/mcp.ts`): read
`mcpOptionsField`; with no `onPromptSubmit` callback, log and throw before
anything else; otherwise fetch the prompt content and hand it to the
callback. -/
def handlePromptCompletionApply (hasOnPromptSubmit : Bool) (promptName : List Char) :
    ApplyOutcome :=
  if ¬ hasOnPromptSubmit then
    ⟨["No onPromptSubmit callback set".toList], [],
      some ("No onPromptSubmit callback set".toList)⟩
  else
    ⟨[], [.fetchPromptContent promptName, .submitPrompt promptName], none⟩

/-- Modelled from the spec: the `apply` callback of a resource suggestion in
`src/resources/completion.ts`, a module absent from the sources (only its
test `src/__tests__/completion.test.ts` and its caller `src/mcp.ts` are
present). The spec's selection contract: replace the matched trigger span
with the sigil plus the resource identifier followed by a single trailing
space. -/
def resourceCompletionApplyChange (uri : List Char) (wFrom wTo : Nat) : Change :=
  ⟨wFrom, wTo, '@' :: (uri ++ [' '])⟩

/-! ## Lemmas about the store embedding -/

/-- Last-occurrence lookup in a batch of entries: the value the batch itself
assigns to `k` when its entries are written in order, later entries winning. -/
def lastWins {α : Type} (batch : List (List Char × α)) (k : List Char) : Option α :=
  batch.foldl (fun acc kv => if kv.1 = k then some kv.2 else acc) none

theorem mapGet_mapSet {α : Type} (m : JsMap α) (k k' : List Char) (v : α) :
    mapGet (mapSet m k v) k' = if k = k' then some v else mapGet m k' := by
  induction m with
  | nil => by_cases h : k = k' <;> simp [mapSet, mapGet, h]
  | cons kv rest ih =>
    obtain ⟨a, b⟩ := kv
    by_cases hak : a = k
    · subst hak
      by_cases hk : a = k' <;> simp [mapSet, mapGet, hk]
    · by_cases hk : a = k' <;> by_cases hkk : k = k' <;>
        simp_all [mapSet, mapGet]

theorem lastWins_foldl {α : Type} (k : List Char) (b : List (List Char × α)) :
    ∀ init : Option α,
      b.foldl (fun acc kv => if kv.1 = k then some kv.2 else acc) init =
        (lastWins b k).or init := by
  induction b with
  | nil => intro init; simp [lastWins]
  | cons kv b ih =>
    intro init
    simp only [lastWins, List.foldl_cons]
    rw [ih (if kv.1 = k then some kv.2 else init), ih (if kv.1 = k then some kv.2 else none)]
    simp only [lastWins]
    by_cases h : kv.1 = k
    · simp only [if_pos h]
      cases b.foldl (fun acc kv => if kv.1 = k then some kv.2 else acc) none <;>
        cases init <;> rfl
    · simp only [if_neg h]
      cases b.foldl (fun acc kv => if kv.1 = k then some kv.2 else acc) none <;>
        cases init <;> rfl

theorem mapGet_mergeResources {α : Type} (b : List (List Char × α)) :
    ∀ (s : JsMap α) (k : List Char),
      mapGet (mergeResources s b) k = (lastWins b k).or (mapGet s k) := by
  induction b with
  | nil => intro s k; simp [mergeResources, lastWins]
  | cons kv b ih =>
    intro s k
    have hstep : mergeResources s (kv :: b) = mergeResources (mapSet s kv.1 kv.2) b := rfl
    rw [hstep, ih (mapSet s kv.1 kv.2) k, mapGet_mapSet]
    have hlw : lastWins (kv :: b) k =
        (lastWins b k).or (if kv.1 = k then some kv.2 else none) := by
      simp only [lastWins, List.foldl_cons]
      exact lastWins_foldl k b (if kv.1 = k then some kv.2 else none)
    rw [hlw]
    by_cases h : kv.1 = k
    · simp only [if_pos h]
      cases lastWins b k <;> cases mapGet s k <;> rfl
    · simp only [if_neg h]
      cases lastWins b k <;> cases mapGet s k <;> rfl

/-! ## Claim theorems -/

/-- C3: merging a batch into a catalog store yields a store whose lookups
are the union of the old store and the batch with the batch winning on
identifier collision (last write wins per key); the old store value is not
mutated (the embedding is a pure function of it). Concretely, merging
`{a: 1}` then `{b: 2}` into an empty store yields both keys, and a later
merge of `{a: 3}` makes `get(a)` return `3`. -/
theorem merge_isUnionLastWriteWins :
    (∀ (α : Type) (s : JsMap α) (b : List (List Char × α)) (k : List Char),
      mapGet (mergeResources s b) k = (lastWins b k).or (mapGet s k)) ∧
    (mapGet (mergeResources (mergeResources ([] : JsMap Nat) [("a".toList, 1)])
        [("b".toList, 2)]) ("a".toList) = some 1 ∧
      mapGet (mergeResources (mergeResources ([] : JsMap Nat) [("a".toList, 1)])
        [("b".toList, 2)]) ("b".toList) = some 2 ∧
      mapGet (mergeResources (mergeResources (mergeResources ([] : JsMap Nat)
        [("a".toList, 1)]) [("b".toList, 2)]) [("a".toList, 3)]) ("a".toList) = some 3 ∧
      mapGet (mergeResources (mergeResources (mergeResources ([] : JsMap Nat)
        [("a".toList, 1)]) [("b".toList, 2)]) [("a".toList, 3)]) ("b".toList) = some 2) := by
  refine ⟨fun α s b k => mapGet_mergeResources b s k, ?_, ?_, ?_, ?_⟩ <;> decide

/-- C4: the claim says every `updateResources` effect of a transaction is
applied in order; the code instead returns from `resourcesField.update` at
the first such effect, so a transaction carrying the batches `{file1: 1}`
and `{file2: 2}` produces a store that contains `file1` but not `file2` —
contradicting the repository's own test `should handle multiple effects in
single transaction`. -/
theorem resourcesFieldUpdate_dropsLaterEffects :
    resourcesFieldUpdate ([] : JsMap Nat)
        [Effect.updateResources [("file1".toList, 1)],
         Effect.updateResources [("file2".toList, 2)]] =
      [("file1".toList, 1)] ∧
    mapGet (resourcesFieldUpdate ([] : JsMap Nat)
        [Effect.updateResources [("file1".toList, 1)],
         Effect.updateResources [("file2".toList, 2)]]) ("file2".toList) = none ∧
    mapGet (mergeResources (mergeResources ([] : JsMap Nat) [("file1".toList, 1)])
        [("file2".toList, 2)]) ("file2".toList) = some 2 := by
  refine ⟨?_, ?_, ?_⟩ <;> decide

/-- C7: applying a resource completion suggestion replaces the matched
trigger span with exactly the sigil, the resource identifier, and a single
trailing space (modelled from the spec; `src/resources/completion.ts` is
absent from the sources, and its in-repository test expects the insertion
`"@file.txt "`). -/
theorem resourceCompletionApply_insertsSigilUriSpace :
    ∀ (uri : List Char) (wFrom wTo : Nat) (doc : List Char),
      (resourceCompletionApplyChange uri wFrom wTo).cFrom = wFrom ∧
      (resourceCompletionApplyChange uri wFrom wTo).cTo = wTo ∧
      (resourceCompletionApplyChange uri wFrom wTo).insert.dropLast = '@' :: uri ∧
      (resourceCompletionApplyChange uri wFrom wTo).insert.getLast? = some ' ' ∧
      applyChange doc (resourceCompletionApplyChange uri wFrom wTo) =
        doc.take wFrom ++ '@' :: (uri ++ [' ']) ++ doc.drop wTo := by
  intro uri wFrom wTo doc
  refine ⟨rfl, rfl, ?_, ?_, ?_⟩
  · show ((('@' :: uri) ++ [' ']).dropLast = _)
    rw [List.dropLast_concat]
  · show ((('@' :: uri) ++ [' ']).getLast? = _)
    rw [List.getLast?_concat]
  · simp [applyChange, resourceCompletionApplyChange]

/-- C9: applying a prompt suggestion with no `onPromptSubmit` callback in
the editor state logs and throws a configuration error, and performs no
secondary prompt-content fetch (and no submit). -/
theorem promptApply_missingCallback_throws :
    ∀ promptName : List Char,
      (handlePromptCompletionApply false promptName).thrown =
        some ("No onPromptSubmit callback set".toList) ∧
      (handlePromptCompletionApply false promptName).logs =
        ["No onPromptSubmit callback set".toList] ∧
      (handlePromptCompletionApply false promptName).actions = [] := by
  intro promptName
  exact ⟨rfl, rfl, rfl⟩

/-- C8: when the catalog fetch fails during a completion request, the
resource completion handler returns `null` on every input, and — whenever
the request got as far as fetching — logs the failure through the optional
logger; no exception escapes the handler (its embedding is total and its
failure branch yields a normal `null` result). -/
theorem resourceCompletion_fetchFailure_logsAndReturnsNull :
    (∀ (word : Option (Nat × Nat)) (explicit connected hasView : Bool) (e : List Char),
      (handleResourceCompletion word explicit connected (.error e) hasView).result = none ∧
      (handleResourceCompletion word explicit connected (.error e) hasView).dispatched =
        none) ∧
    (∀ (w : Nat × Nat) (explicit hasView : Bool) (e : List Char),
      ¬ (w.1 = w.2 ∧ ¬ explicit) →
      (handleResourceCompletion (some w) explicit true (.error e) hasView).logs =
        ["Fetching resources from MCP server".toList,
         "Failed to fetch MCP resources:".toList ++ e]) := by
  constructor
  · intro word explicit connected hasView e
    cases word with
    | none => exact ⟨rfl, rfl⟩
    | some w =>
      simp only [handleResourceCompletion]
      by_cases h1 : w.1 = w.2 ∧ ¬ explicit
      · rw [if_pos h1]; exact ⟨rfl, rfl⟩
      · rw [if_neg h1]
        by_cases h2 : ¬ connected
        · rw [if_pos h2]; exact ⟨rfl, rfl⟩
        · rw [if_neg h2]; exact ⟨rfl, rfl⟩
  · intro w explicit hasView e h1
    simp only [handleResourceCompletion]
    rw [if_neg h1]
    simp only [not_true, if_false]
    rfl

/-- Closed instance of the hypothesis-bearing part of C8: an explicit
completion request at span `(0, 1)` with a failing fetch yields no
suggestions and the two expected logger calls. -/
theorem resourceCompletion_fetchFailure_witness :
    (handleResourceCompletion (some (0, 1)) true true (.error ("boom".toList)) true).result =
        none ∧
      (handleResourceCompletion (some (0, 1)) true true
        (.error ("boom".toList)) true).logs =
        ["Fetching resources from MCP server".toList,
         "Failed to fetch MCP resources:".toList ++ "boom".toList] :=
  ⟨(resourceCompletion_fetchFailure_logsAndReturnsNull.1 (some (0, 1)) true true true
      ("boom".toList)).1,
    resourceCompletion_fetchFailure_logsAndReturnsNull.2 (0, 1) true true ("boom".toList)
      (by decide)⟩

/-- C10: in prompt completion only argument-free prompts are merged into the
prompt store, while the returned suggestion list is built from every fetched
prompt (arguments included); and when every fetched prompt has arguments the
handler returns `null` even though the fetch was non-empty. -/
theorem promptCompletion_argFilterMismatch :
    ∀ (w : Nat × Nat) (explicit hasView : Bool) (prompts : List Prompt),
      ¬ (w.1 = w.2 ∧ ¬ explicit) →
      ((handlePromptCompletion (some w) explicit true (.ok prompts) hasView).dispatched =
          none ∨
        (handlePromptCompletion (some w) explicit true (.ok prompts) hasView).dispatched =
          some (mergeResources []
            ((prompts.filter promptHasNoArgs).map (fun p => (p.name, p))))) ∧
      (∀ r, (handlePromptCompletion (some w) explicit true (.ok prompts) hasView).result =
          some r →
        r.2 = prompts.map mkPromptOption ∧ r.2.length = prompts.length) ∧
      ((∀ p ∈ prompts, promptHasNoArgs p = false) →
        (handlePromptCompletion (some w) explicit true (.ok prompts) hasView).result =
          none) := by
  intro w explicit hasView prompts h1
  simp only [handlePromptCompletion]
  rw [if_neg h1]
  simp only [not_true, if_false]
  by_cases hf : (prompts.filter promptHasNoArgs).length = 0
  · rw [if_pos hf]
    refine ⟨Or.inl rfl, ?_, fun _ => rfl⟩
    intro r hr
    exact Option.noConfusion hr
  · rw [if_neg hf]
    refine ⟨?_, ?_, ?_⟩
    · by_cases hv : hasView
      · exact Or.inr (by rw [if_pos hv])
      · exact Or.inl (by rw [if_neg hv])
    · intro r hr
      cases hr
      exact ⟨rfl, (List.length_map _ _).symm ▸ rfl⟩
    · intro hall
      exfalso
      apply hf
      rw [List.length_eq_zero, List.filter_eq_nil_iff]
      intro p hp
      simp [hall p hp]

/-- Closed instance of C10: two prompts that both carry arguments produce no
suggestions despite a successful non-empty fetch. -/
theorem promptCompletion_argFilterMismatch_witness :
    (handlePromptCompletion (some (0, 1)) true true
        (.ok [⟨"a".toList, none, some ["x".toList]⟩,
              ⟨"b".toList, some "d".toList, some ["y".toList]⟩]) true).result = none :=
  (promptCompletion_argFilterMismatch (0, 1) true true
      [⟨"a".toList, none, some ["x".toList]⟩,
       ⟨"b".toList, some "d".toList, some ["y".toList]⟩]
      (by decide)).2.2 (by decide)

theorem length_countP_split {α : Type} (p : α → Bool) (l : List α) :
    l.length = l.countP p + l.countP (fun a => !(p a)) := by
  induction l with
  | nil => rfl
  | cons a l ih =>
    simp only [List.length_cons, List.countP_cons, ih]
    cases h : p a <;> simp [h] <;> omega

theorem countP_map_pred {α β : Type} (f : α → β) (p : β → Bool) (l : List α) :
    (l.map f).countP p = l.countP (fun a => p (f a)) := by
  induction l with
  | nil => rfl
  | cons a l ih => simp [List.countP_cons, ih]

theorem decorateRange_counts {α : Type} (resources : JsMap α) (doc : List Char)
    (rg : Nat × Nat) :
    ((decorateRange resources doc rg).countP Deco.isResolved =
      (matchAllURIs (sliceString doc rg.1 rg.2)).countP
        (fun m => mapHas resources (m.2.drop 1))) ∧
    ((decorateRange resources doc rg).countP (fun d => !(Deco.isResolved d)) =
      (matchAllURIs (sliceString doc rg.1 rg.2)).countP
        (fun m => !(mapHas resources (m.2.drop 1)))) ∧
    ((decorateRange resources doc rg).length =
      (matchAllURIs (sliceString doc rg.1 rg.2)).length) := by
  unfold decorateRange
  refine ⟨?_, ?_, by simp⟩
  · rw [countP_map_pred]
    apply List.countP_congr
    intro m _
    simp only [List.drop_one]
    cases h : mapGet resources m.2.tail <;> simp [Deco.isResolved, mapHas, h]
  · rw [countP_map_pred]
    apply List.countP_congr
    intro m _
    simp only [List.drop_one]
    cases h : mapGet resources m.2.tail <;> simp [Deco.isResolved, mapHas, h]

/-- C5: the decoration engine emits exactly one resolved decoration per
visible token whose identifier is in the store and exactly one unresolved
decoration per visible token whose identifier is not, so the decoration
count is the number of resolved tokens plus the number of unresolved tokens,
and a buffer without token matches yields no decorations (the lengths agree,
so zero matches give zero decorations). -/
theorem decorations_oneEachResolvedUnresolved :
    ∀ (α : Type) (resources : JsMap α) (doc : List Char)
      (visibleRanges : List (Nat × Nat)),
      ((createResourceDecorations resources doc visibleRanges).countP Deco.isResolved =
        ((visibleRanges.map (fun rg => matchAllURIs (sliceString doc rg.1 rg.2))).flatten).countP
          (fun m => mapHas resources (m.2.drop 1))) ∧
      ((createResourceDecorations resources doc visibleRanges).countP
          (fun d => !(Deco.isResolved d)) =
        ((visibleRanges.map (fun rg => matchAllURIs (sliceString doc rg.1 rg.2))).flatten).countP
          (fun m => !(mapHas resources (m.2.drop 1)))) ∧
      ((createResourceDecorations resources doc visibleRanges).length =
        ((visibleRanges.map (fun rg => matchAllURIs (sliceString doc rg.1 rg.2))).flatten).length) ∧
      ((createResourceDecorations resources doc visibleRanges).length =
        (createResourceDecorations resources doc visibleRanges).countP Deco.isResolved +
          (createResourceDecorations resources doc visibleRanges).countP
            (fun d => !(Deco.isResolved d))) := by
  intro α resources doc visibleRanges
  refine ⟨?_, ?_, ?_, ?_⟩
  · induction visibleRanges with
    | nil => rfl
    | cons rg rest ih =>
      simp only [createResourceDecorations, List.map_cons, List.flatten_cons,
        List.countP_append] at *
      rw [(decorateRange_counts resources doc rg).1, ih]
  · induction visibleRanges with
    | nil => rfl
    | cons rg rest ih =>
      simp only [createResourceDecorations, List.map_cons, List.flatten_cons,
        List.countP_append] at *
      rw [(decorateRange_counts resources doc rg).2.1, ih]
  · induction visibleRanges with
    | nil => rfl
    | cons rg rest ih =>
      simp only [createResourceDecorations, List.map_cons, List.flatten_cons,
        List.length_append] at *
      rw [(decorateRange_counts resources doc rg).2.2, ih]
  · exact length_countP_split _ _

theorem inputHandling_deleteBackward {α : Type} (resources : JsMap α) (doc : List Char)
    (tr : Tr) : inputHandling resources doc tr ("delete.backward".toList) = none := by
  unfold inputHandling
  rw [if_neg (by decide)]

theorem inputHandling_deleteForward {α : Type} (resources : JsMap α) (doc : List Char)
    (tr : Tr) : inputHandling resources doc tr ("delete.forward".toList) = none := by
  unfold inputHandling
  rw [if_neg (by decide)]

/-- C1: a single-character backward delete with a collapsed cursor sitting
immediately after a resolved token is rewritten to delete the whole token
span `[start, end)` with the cursor placed at `start`; in particular, on
`"Check @github://repo here"` with `github://repo` in the store and the
cursor at offset 20, the rewritten change yields `"Check  here"` with the
cursor at offset 6. -/
theorem deleteBackward_tokenAtomic :
    (∀ (α : Type) (resources : JsMap α) (doc : List Char) (tr : Tr)
      (rFrom rTo : Nat) (uri : List Char),
      tr.userEvent = some ("delete.backward".toList) →
      tr.startSelAnchor = tr.startSelHead →
      getResourceAtCursor resources doc tr.startSelHead = some (rFrom, rTo, uri) →
      resourceInputFilter resources doc tr =
        FilterOut.rewrite [⟨rFrom, rTo, []⟩] (some (rFrom, rFrom))) ∧
    (resourceInputFilter [("github://repo".toList, ())]
        ("Check @github://repo here".toList)
        ⟨some ("delete.backward".toList), 20, 20, [⟨19, 20, []⟩], some (19, 19)⟩ =
      FilterOut.rewrite [⟨6, 20, []⟩] (some (6, 6)) ∧
      applyChange ("Check @github://repo here".toList) ⟨6, 20, []⟩ =
        "Check  here".toList) := by
  constructor
  · intro α resources doc tr rFrom rTo uri hue hsel hres
    unfold resourceInputFilter
    rw [hue]
    simp only [if_neg (not_not_intro hsel), inputHandling_deleteBackward]
    rw [if_pos (Or.inl trivial)]
    unfold deleteHandling
    rw [if_pos rfl, hres]
  · exact ⟨by decide, by decide⟩

/-- Closed instance of the universally quantified part of C1, at the spec's
concrete scenario. -/
theorem deleteBackward_tokenAtomic_witness :
    resourceInputFilter [("github://repo".toList, ())]
        ("Check @github://repo here".toList)
        ⟨some ("delete.backward".toList), 20, 20, [⟨19, 20, []⟩], some (19, 19)⟩ =
      FilterOut.rewrite [⟨6, 20, []⟩] (some (6, 6)) :=
  deleteBackward_tokenAtomic.1 Unit [("github://repo".toList, ())]
    ("Check @github://repo here".toList)
    ⟨some ("delete.backward".toList), 20, 20, [⟨19, 20, []⟩], some (19, 19)⟩
    6 20 ("github://repo".toList) rfl rfl (by decide)

/-- C6: a single-character backward or forward deletion whose collapsed
cursor sits at the boundary of a token that does not resolve against the
store is not intercepted — the deletion branch returns the transaction
unchanged, so only the single character is removed; concretely, on
`"Check @github://nonexistent here"` with an empty store and the cursor at
offset 27, the transaction passes through and deletes only the final `t`. -/
theorem deleteNearUnresolved_passthrough :
    (∀ (α : Type) (resources : JsMap α) (doc : List Char) (tr : Tr),
      tr.userEvent = some ("delete.backward".toList) →
      tr.startSelAnchor = tr.startSelHead →
      getResourceAtCursor resources doc tr.startSelHead = none →
      resourceInputFilter resources doc tr = FilterOut.pass) ∧
    (∀ (α : Type) (resources : JsMap α) (doc : List Char) (tr : Tr),
      tr.userEvent = some ("delete.forward".toList) →
      tr.startSelAnchor = tr.startSelHead →
      getResourceAfterCursor resources doc tr.startSelHead = none →
      resourceInputFilter resources doc tr = FilterOut.pass) ∧
    (resourceInputFilter ([] : JsMap Unit)
        ("Check @github://nonexistent here".toList)
        ⟨some ("delete.backward".toList), 27, 27, [⟨26, 27, []⟩], some (26, 26)⟩ =
      FilterOut.pass ∧
      applyChange ("Check @github://nonexistent here".toList) ⟨26, 27, []⟩ =
        "Check @github://nonexisten here".toList) := by
  refine ⟨?_, ?_, by decide, by decide⟩
  · intro α resources doc tr hue hsel hres
    unfold resourceInputFilter
    rw [hue]
    simp only [if_neg (not_not_intro hsel), inputHandling_deleteBackward]
    rw [if_pos (Or.inl trivial)]
    unfold deleteHandling
    rw [if_pos rfl, hres]
  · intro α resources doc tr hue hsel hres
    unfold resourceInputFilter
    rw [hue]
    simp only [if_neg (not_not_intro hsel), inputHandling_deleteForward]
    rw [if_pos (Or.inr trivial)]
    unfold deleteHandling
    rw [if_neg (by decide), hres]

/-- Closed instance of the universally quantified parts of C6, at the spec's
concrete scenario. -/
theorem deleteNearUnresolved_passthrough_witness :
    resourceInputFilter ([] : JsMap Unit)
        ("Check @github://nonexistent here".toList)
        ⟨some ("delete.backward".toList), 27, 27, [⟨26, 27, []⟩], some (26, 26)⟩ =
      FilterOut.pass :=
  deleteNearUnresolved_passthrough.1 Unit []
    ("Check @github://nonexistent here".toList)
    ⟨some ("delete.backward".toList), 27, 27, [⟨26, 27, []⟩], some (26, 26)⟩
    rfl rfl (by decide)

theorem takeWhile_eq_self_of_all {α : Type} (p : α → Bool) :
    ∀ l : List α, (∀ c ∈ l, p c = true) → l.takeWhile p = l := by
  intro l
  induction l with
  | nil => intro _; rfl
  | cons a l ih =>
    intro h
    rw [List.takeWhile_cons, h a (List.mem_cons_self a l)]
    simp [ih (fun c hc => h c (List.mem_cons_of_mem a hc))]

theorem all_of_takeWhile_eq_self {α : Type} (p : α → Bool) :
    ∀ l : List α, l.takeWhile p = l → ∀ c ∈ l, p c = true := by
  intro l
  induction l with
  | nil => intro _ c hc; cases hc
  | cons a l ih =>
    intro h c hc
    rw [List.takeWhile_cons] at h
    by_cases hpa : p a = true
    · rw [if_pos hpa] at h
      rcases List.mem_cons.1 hc with rfl | hmem
      · exact hpa
      · exact ih (List.cons_injective h) c hmem
    · rw [if_neg hpa] at h
      exact absurd h (by simp)

theorem mem_takeWhile_pred {α : Type} (p : α → Bool) :
    ∀ l : List α, ∀ c ∈ l.takeWhile p, p c = true := by
  intro l
  induction l with
  | nil => intro c hc; cases hc
  | cons a l ih =>
    intro c hc
    rw [List.takeWhile_cons] at hc
    by_cases hpa : p a = true
    · rw [if_pos hpa] at hc
      rcases List.mem_cons.1 hc with rfl | hmem
      · exact hpa
      · exact ih c hmem
    · rw [if_neg hpa] at hc
      cases hc

theorem takeWhile_append_stop {α : Type} (p : α → Bool) :
    ∀ (l₁ l₂ : List α), (∀ c ∈ l₁, p c = true) →
      (∀ c, l₂.head? = some c → p c = false) →
      (l₁ ++ l₂).takeWhile p = l₁ ∧ (l₁ ++ l₂).dropWhile p = l₂ := by
  intro l₁
  induction l₁ with
  | nil =>
    intro l₂ _ h₂
    cases l₂ with
    | nil => exact ⟨rfl, rfl⟩
    | cons b t =>
      constructor
      · rw [List.nil_append, List.takeWhile_cons, if_neg (by simp [h₂ b rfl])]
      · rw [List.nil_append, List.dropWhile_cons, if_neg (by simp [h₂ b rfl])]
  | cons a l ih =>
    intro l₂ h₁ h₂
    have hpa := h₁ a (List.mem_cons_self a l)
    have hrec := ih l₂ (fun c hc => h₁ c (List.mem_cons_of_mem a hc)) h₂
    constructor
    · rw [List.cons_append, List.takeWhile_cons, if_pos hpa, hrec.1]
    · rw [List.cons_append, List.dropWhile_cons, if_pos hpa, hrec.2]

/-- Token grammar exactly as the spec words it: `@`, then one or more word
characters or hyphens, then the literal `://` not immediately followed by
another `/`, then one or more non-whitespace characters. This is the
refinement target for the matcher characterization — the one definition
transcribed from the spec's words rather than from the source. -/
def uriGrammarSpec (cs : List Char) : Prop :=
  ∃ scheme tail, cs = '@' :: (scheme ++ ':' :: '/' :: '/' :: tail) ∧
    scheme ≠ [] ∧ (∀ c ∈ scheme, isSchemeChar c = true) ∧
    tail ≠ [] ∧ (∀ c ∈ tail, isJSSpace c = false) ∧ tail.head? ≠ some '/'

theorem matchTokenAt_full_sound (cs : List Char) (h : matchTokenAt cs = some cs) :
    uriGrammarSpec cs := by
  cases cs with
  | nil => simp [matchTokenAt] at h
  | cons c rest =>
    simp only [matchTokenAt] at h
    by_cases hc : c = '@'
    · subst hc
      rw [if_pos rfl] at h
      split at h
      · exact absurd h (by simp)
      · rename_i hne
        split at h
        case _ c1 c2 c3 rest2 heq =>
          split at h
          · rename_i hsep
            obtain ⟨rfl, rfl, rfl⟩ := hsep
            split at h
            · exact absurd h (by simp)
            · rename_i c4 tail0
              split at h
              · exact absurd h (by simp)
              · rename_i hc4
                split at h
                · exact absurd h (by simp)
                · rename_i htne
                  injection h with h
                  injection h with _ h
                  have hrest : rest = List.takeWhile isSchemeChar rest ++
                      (':' :: '/' :: '/' :: c4 :: tail0) := by
                    conv_lhs => rw [← List.takeWhile_append_dropWhile (p := isSchemeChar)
                      (l := rest)]
                    rw [heq]
                  have hcancel := List.append_cancel_left (h.trans hrest)
                  injection hcancel with _ hcancel
                  injection hcancel with _ hcancel
                  injection hcancel with _ hcancel
                  refine ⟨List.takeWhile isSchemeChar rest, c4 :: tail0,
                    ?_, ?_, ?_, ?_, ?_, ?_⟩
                  · conv_lhs => rw [hrest]
                  · intro hS
                    exact hne (by simp [hS])
                  · exact fun c hc => mem_takeWhile_pred isSchemeChar rest c hc
                  · exact List.cons_ne_nil c4 tail0
                  · intro c hc
                    have := all_of_takeWhile_eq_self (fun ch => !(isJSSpace ch))
                      (c4 :: tail0) hcancel c hc
                    simpa using this
                  · intro hcontra
                    exact hc4 (by injection hcontra)
          · exact absurd h (by simp)
        case _ x hnot =>
          exact absurd h (by simp)
    · rw [if_neg hc] at h
      exact absurd h (by simp)

theorem matchTokenAt_full_complete (cs : List Char) (h : uriGrammarSpec cs) :
    matchTokenAt cs = some cs := by
  obtain ⟨scheme, tail, rfl, hne, hall, htne, htall, hhead⟩ := h
  obtain ⟨c4, tail0, rfl⟩ := List.exists_cons_of_ne_nil htne
  have hsplit := takeWhile_append_stop isSchemeChar scheme (':' :: '/' :: '/' :: c4 :: tail0)
    hall (fun c hc => by injection hc with hc; subst hc; decide)
  simp only [matchTokenAt]
  rw [if_pos trivial, hsplit.1, hsplit.2]
  rw [if_neg (by simp [hne])]
  simp only []
  rw [if_pos ⟨trivial, trivial, trivial⟩]
  rw [if_neg (fun hcf => hhead (by rw [hcf]; rfl))]
  rw [takeWhile_eq_self_of_all _ _ (fun c hc => by simp [htall c hc])]
  rw [if_neg (by simp)]
  rfl

/-- C2: a string is accepted in full by the token matcher exactly when it is
`@`, one or more word characters or hyphens, the literal `://` not followed
by another `/`, and one or more non-whitespace characters; in particular
`@github://repo` is matched fully while `@github:/repo`, `@github:///repo`
and `@` produce no match at all. -/
theorem uriPattern_matchesExactlyGrammar :
    (∀ cs : List Char, matchTokenAt cs = some cs ↔ uriGrammarSpec cs) ∧
    matchAllURIs ("@github://repo".toList) = [(0, "@github://repo".toList)] ∧
    matchAllURIs ("@github:/repo".toList) = [] ∧
    matchAllURIs ("@github:///repo".toList) = [] ∧
    matchAllURIs ("@".toList) = [] :=
  ⟨fun cs => ⟨matchTokenAt_full_sound cs, matchTokenAt_full_complete cs⟩,
    by decide, by decide, by decide, by decide⟩

/-- Closed instance of C2's characterization: both directions of the
equivalence at concrete strings. -/
theorem uriPattern_matchesExactlyGrammar_witness :
    matchTokenAt ("@a-b://x".toList) = some ("@a-b://x".toList) ∧
      ¬ uriGrammarSpec ("@github:/repo".toList) :=
  ⟨(uriPattern_matchesExactlyGrammar.1 ("@a-b://x".toList)).mpr
      ⟨"a-b".toList, "x".toList, rfl, by decide, by decide, by decide, by decide, by decide⟩,
    fun hg => by
      have := (uriPattern_matchesExactlyGrammar.1 ("@github:/repo".toList)).mpr hg
      exact absurd this (by decide)⟩

end CodemirrorMcp
